import Mathlib

/-!
Shallow embedding of the core components of the `power` runes indexer and
transaction service, together with proofs about the claims of its
specification.

Each definition is translated from the Rust source file named in its doc
comment.  Machine integers (`u128`, `u64`) are modelled as `Nat`; where the
Rust code performs wrapping (release-profile) arithmetic this is made explicit
with `% U128MOD`, and where an overflow / out-of-bounds access would make the
Rust code panic the model returns `none`.
-/

namespace Power

/-- Modulus of Rust `u128` arithmetic. -/
def U128MOD : Nat := 2 ^ 128

/-- Wrapping `u128` addition (Rust release-profile `+`). -/
def wadd128 (a b : Nat) : Nat := (a + b) % U128MOD

/-- Wrapping `u128` subtraction (Rust release-profile `-`), for operands below
the modulus. -/
def wsub128 (a b : Nat) : Nat := (a + U128MOD - b) % U128MOD

/-! ## Watchdog state (src/service/tx_watchdog.rs, src/db/mod.rs)

Balances are stored as decimal strings in the database and parsed with
`u128::from_str(..).unwrap_or_default()`; the model works directly with the
parsed numbers. -/

/-- Trading pair row: the two pool balances touched by the watchdog. -/
structure TradingPair where
  baseBalance : Nat
  quoteBalance : Nat
deriving Repr, DecidableEq

/-- Liquidity provider row: the two amounts touched by the watchdog. -/
structure LiquidityProvider where
  baseAmount : Nat
  quoteAmount : Nat
deriving Repr, DecidableEq

/-- Liquidity change request row (`liquidity_change_requests`).  `txHash` is
the `tx_hash` column, i.e. the submitted txid recorded on the request. -/
structure ChangeRequest where
  reqUid : String
  tradingPair : Nat
  baseAddress : String
  baseAmount : Nat
  quoteAmount : Nat
  action : String
  status : String
  txHash : String
deriving Repr, DecidableEq

/-- Submitted transaction row (`submitted_txs`). -/
structure SubmittedTx where
  txHash : String
  requestId : String
  status : String
deriving Repr, DecidableEq

/-- The rows a single watchdog step may touch; a store transaction commits
them together, so one step is modelled as a pure function on this record. -/
structure WatchState where
  pair : TradingPair
  lp : LiquidityProvider
  request : ChangeRequest
  tx : SubmittedTx
deriving Repr, DecidableEq

/-- The four request actions dispatched by `TxWatchdog::do_job`. -/
inductive Action where
  | addLiquidity
  | rmLiquidity
  | swap
  | reverseSwap
deriving Repr, DecidableEq

/-- `TxWatchdog::process_change_liquidity` (src/service/tx_watchdog.rs
lines 177-317): apply the pool delta, update the liquidity provider for
add/remove, mark the request done (recording the submitted tx hash) and the
submitted tx mined.  All writes go through one store transaction, so the
success path is one simultaneous update. -/
def process_change_liquidity (s : WatchState) (action : Action) : WatchState :=
  let baseDelta := s.request.baseAmount
  let quoteDelta := s.request.quoteAmount
  let pair : TradingPair :=
    match action with
    | .addLiquidity =>
        ⟨wadd128 s.pair.baseBalance baseDelta, wadd128 s.pair.quoteBalance quoteDelta⟩
    | .rmLiquidity =>
        ⟨wsub128 s.pair.baseBalance baseDelta, wsub128 s.pair.quoteBalance quoteDelta⟩
    | .swap =>
        ⟨wadd128 s.pair.baseBalance baseDelta, wsub128 s.pair.quoteBalance quoteDelta⟩
    | .reverseSwap =>
        ⟨wsub128 s.pair.baseBalance baseDelta, wadd128 s.pair.quoteBalance quoteDelta⟩
  let lp : LiquidityProvider :=
    match action with
    | .addLiquidity =>
        ⟨wadd128 s.lp.baseAmount baseDelta, wadd128 s.lp.quoteAmount quoteDelta⟩
    | .rmLiquidity =>
        ⟨wsub128 s.lp.baseAmount baseDelta, wsub128 s.lp.quoteAmount quoteDelta⟩
    | _ => s.lp
  { pair := pair
    lp := lp
    request := { s.request with status := "done", txHash := s.tx.txHash }
    tx := { s.tx with status := "mined" } }

/-- `TxWatchdog::fail_tx` (src/service/tx_watchdog.rs lines 131-175): inside
one store transaction the submitted tx status is set to failed, and
`update_liquidity_change_request` is called with `tx.request_id` passed as
BOTH the `request_id` and the `tx_hash` argument, so the request's `tx_hash`
column is overwritten with the request uid. -/
def fail_tx (s : WatchState) : WatchState :=
  { s with
    tx := { s.tx with status := "failed" }
    request := { s.request with txHash := s.tx.requestId, status := "failed" } }

/-- Result of the chain RPC query `get_raw_transaction_info` for one pending
tx, as inspected by `TxWatchdog::do_job`: either an error, or a confirmation
count (`confirmations.unwrap_or_default()`). -/
inductive ChainQuery where
  | failure
  | success (confirmations : Nat)
deriving Repr, DecidableEq

/-- One iteration of the loop body of `TxWatchdog::do_job`
(src/service/tx_watchdog.rs lines 59-128) for a single pending tx.
`ageSeconds` is `now - created_at` in seconds; on a chain-query failure the
tx is failed only when the age reaches one hour. -/
def watchdog_step (q : ChainQuery) (ageSeconds : Int) (s : WatchState) : WatchState :=
  match q with
  | .failure => if 3600 ≤ ageSeconds then fail_tx s else s
  | .success conf =>
      if conf < 2 then s
      else if s.request.action = "add" then process_change_liquidity s .addLiquidity
      else if s.request.action = "swap-direct" then process_change_liquidity s .swap
      else if s.request.action = "swap-reverse" then process_change_liquidity s .reverseSwap
      else if s.request.action = "remove" then process_change_liquidity s .rmLiquidity
      else s

/-! ## Rune entity (src/service/entities.rs) -/

/-- In-memory rune entity; only the counters touched by `add_mint` are kept.
All of them are `u128` in the source except `mints` (an `i32`). -/
structure RuneEntity where
  rune : String
  mints : Nat
  minted : Nat
  in_circulation : Nat
deriving Repr, DecidableEq

/-- `RuneEntity::add_mint` (src/service/entities.rs lines 97-103):
`mints += 1`, `in_circulation += amount` (unchecked; wrapping in release),
then `minted` is updated with `checked_add`: clamped to its previous value,
returning `false`, when the addition would overflow `u128`. -/
def RuneEntity.add_mint (e : RuneEntity) (amount : Nat) : RuneEntity × Bool :=
  let e1 : RuneEntity :=
    { e with mints := e.mints + 1, in_circulation := wadd128 e.in_circulation amount }
  if e.minted + amount < U128MOD then
    ({ e1 with minted := e.minted + amount }, true)
  else
    (e1, false)

/-! ## Pool PSBT service fee (src/tx/pool_txs.rs lines 287-302)

The Rust code computes `rounded = ((btc_amount as f64 * fee_percent) / 100.0)
.round() as u64`; the model takes that rounded value as the `Nat` argument
(for the inputs used in the theorems below the `f64` computation is exact). -/

/-- Fee charged by `build_multi_asset_tx`: the rounded percentage, but any
value below 2000 sats is replaced by 1000 ("prevent dust utxos"). -/
def service_fee_amount (rounded : Nat) : Nat :=
  if rounded < 2000 then 1000 else rounded

/-- Modelled from the spec: "service_fee = round(btc_amount × fee_percent /
100), floored at 1000 sats" — the fee the specification describes, for
comparison with `service_fee_amount`. -/
def service_fee_spec (rounded : Nat) : Nat :=
  if rounded < 1000 then 1000 else rounded

/-- The outputs appended for the service fee: one per destination address,
each of value `service_fee / destination.len()` (u64 integer division). -/
def service_fee_outputs (fee : Nat) (destination : List String) : List (String × Nat) :=
  destination.map (fun a => (a, fee / destination.length))

/-! ## Etching commitment transaction (src/tx/runes_txs.rs lines 54-116) -/

/-- A funding UTXO as consumed by `create_commitment_tx`. -/
structure Utxo where
  txid : String
  vout : Nat
  value : Nat
deriving Repr, DecidableEq

/-- The parts of the commit transaction the claims are about. -/
structure CommitmentTx where
  inputs : List Utxo
  commitmentValues : List Nat
  changeValue : Nat
deriving Repr, DecidableEq

/-- The input-selection loop of `create_commitment_tx`: stop once
`in_value > out_amount`, otherwise keep adding inputs.  Returns the selected
inputs and the accumulated input value. -/
def greedy_inputs (utxos : List Utxo) (outAmount : Nat) (inValue : Nat) :
    List Utxo × Nat :=
  match utxos with
  | [] => ([], inValue)
  | u :: rest =>
      if outAmount < inValue then ([], inValue)
      else
        let (sel, v) := greedy_inputs rest outAmount (inValue + u.value)
        (u :: sel, v)

/-- `RunesTxBuilder::create_commitment_tx`: greedy input selection, one
commitment output of `commitmentValue` per etching, then a change output of
`in_value - out_amount - fee` computed with plain `u64` subtraction.  The
function has no error path: when the funding is insufficient the subtraction
underflows (panic in a debug build, wrap-around in release), modelled here as
`none`.  The fee (`fee_rate * vsize * 1.85`) is taken as a parameter. -/
def create_commitment_tx (etchings : Nat) (commitmentValue : Nat)
    (utxos : List Utxo) (fee : Nat) : Option CommitmentTx :=
  let outAmount := etchings * commitmentValue
  let (ins, inValue) := greedy_inputs utxos outAmount 0
  if inValue < outAmount then none
  else if inValue - outAmount < fee then none
  else some ⟨ins, List.replicate etchings commitmentValue, inValue - outAmount - fee⟩

/-! ## Runes indexer allocation pipeline (src/indexer/runes_indexer.rs)

A transaction output is abstracted to exactly what the indexer inspects:
whether the script starts with `OP_RETURN`, whether the next instruction is
the rune magic number, and the result of `Address::from_script`. -/

abbrev RuneName := String
abbrev Addr := String

/-- Output script as inspected by the indexer.  `opRet magic` is a script
whose first instruction is `OP_RETURN` (`magic` records whether the next
instruction is the runes protocol magic number); `pay a` is any other script
(`a` is the result of `Address::from_script`, `none` when it fails;
`Address::from_script` always fails on `OP_RETURN` scripts). -/
inductive Script where
  | opRet (magic : Bool)
  | pay (addr : Option Addr)
deriving Repr, DecidableEq

/-- Transaction output. -/
structure TxOut where
  script : Script
  value : Nat
deriving Repr, DecidableEq

/-- Whether the script's first instruction is `OP_RETURN`. -/
def Script.startsOpReturn : Script → Bool
  | .opRet _ => true
  | .pay _ => false

/-- `Address::from_script` on the abstracted script. -/
def Script.address : Script → Option Addr
  | .opRet _ => none
  | .pay a => a

/-- Per-rune allocation for one output (`struct Allocation`): the rune
amounts contributed by edicts, the mint, and the etching premine. -/
structure Allocation where
  edict : Nat
  mint : Nat
  etching : Nat
deriving Repr, DecidableEq

/-- The default allocation (`Allocation::default()`). -/
def Allocation.zero : Allocation := ⟨0, 0, 0⟩

/-- Per-output allocation map `HashMap<String, Allocation>`, modelled as an
association list (one entry per rune). -/
abbrev AllocMap := List (RuneName × Allocation)

/-- Map lookup, defaulting to the zero allocation. -/
def AllocMap.get (m : AllocMap) (r : RuneName) : Allocation :=
  match m with
  | [] => Allocation.zero
  | (k, a) :: rest => if k = r then a else AllocMap.get rest r

/-- `entry(r).or_default()` followed by a field mutation `f`. -/
def AllocMap.update (m : AllocMap) (r : RuneName) (f : Allocation → Allocation) :
    AllocMap :=
  match m with
  | [] => [(r, f Allocation.zero)]
  | (k, a) :: rest =>
      if k = r then (k, f a) :: rest else (k, a) :: AllocMap.update rest r f

/-- `allocated_runes[vout].entry(r).or_default()` followed by `f`:
`allocated_runes` is a vector with one map per output; indexing past its end
is a Rust panic, modelled as `none`. -/
def bumpAt (al : List AllocMap) (vout : Nat) (r : RuneName)
    (f : Allocation → Allocation) : Option (List AllocMap) :=
  match al, vout with
  | [], _ => none
  | m :: rest, 0 => some (AllocMap.update m r f :: rest)
  | m :: rest, v + 1 => (bumpAt rest v r f).map (fun al2 => m :: al2)

/-- Allocation at output `i` for rune `r` (zero when absent). -/
def allocGetAt (al : List AllocMap) (i : Nat) (r : RuneName) : Allocation :=
  AllocMap.get (al[i]?.getD []) r

/-- `get_non_opreturn_outputs` (src/indexer/runes_indexer.rs lines 908-922):
the outputs, with their indices, whose first instruction is not
`OP_RETURN`. -/
def get_non_opreturn_outputs (outs : List TxOut) : List (Nat × TxOut) :=
  outs.enum.filter (fun p => !p.2.script.startsOpReturn)

/-- `get_change_output` (lines 887-906): the pointer when present (rejected
only when it exceeds the output count — `pointer == len` is let through),
otherwise the first non-`OP_RETURN` output. -/
def get_change_output (outs : List TxOut) (pointer : Option Nat) : Option Nat :=
  match pointer with
  | some p => if outs.length < p then none else some p
  | none => (outs.enum.find? (fun p => !p.2.script.startsOpReturn)).map Prod.fst

/-- The output scan of `extract_premine_address` (lines 863-884): outputs not
starting with `OP_RETURN` are skipped; an `OP_RETURN` output whose next
instruction is not the magic number sets a flag; the first `OP_RETURN`+magic
output seen with the flag already set is returned. -/
def premine_scan : List TxOut → Nat → Bool → Option Nat
  | [], _, _ => none
  | o :: rest, i, found =>
      match o.script with
      | .pay _ => premine_scan rest (i + 1) found
      | .opRet magic =>
          if !magic then premine_scan rest (i + 1) true
          else if found then some i
          else premine_scan rest (i + 1) found

/-- `extract_premine_address` (lines 855-885): the runestone pointer when
present (again only `pointer > len` is rejected), otherwise the scan above. -/
def extract_premine_address (pointer : Option Nat) (outs : List TxOut) :
    Option Nat :=
  match pointer with
  | some p => if outs.length < p then none else some p
  | none => premine_scan outs 0 false

/-- Modelled from the spec: "the first non-OP_RETURN output following an
output whose payload starts with OP_RETURN but is not the rune magic number"
— the output the specification says receives the premine, for comparison
with `premine_scan`. -/
def spec_premine_scan : List TxOut → Nat → Bool → Option Nat
  | [], _, _ => none
  | o :: rest, i, found =>
      match o.script with
      | .pay _ => if found then some i else spec_premine_scan rest (i + 1) found
      | .opRet magic => spec_premine_scan rest (i + 1) (found || !magic)

/-- An edict as decoded from the runestone. -/
structure Edict where
  idBlock : Nat
  idTx : Nat
  amount : Nat
  output : Nat
deriving Repr, DecidableEq

/-- Bump the allocation of rune `r` at each of the listed output indices
(the loops `for (vout, _out) in outs.iter()` of the edict-splitting
branches). -/
def bump_many (f : Allocation → Allocation) (r : RuneName) :
    List (Nat × TxOut) → List AllocMap → Option (List AllocMap)
  | [], al => some al
  | p :: rest, al =>
      match bumpAt al p.1 r f with
      | none => none
      | some al2 => bump_many f r rest al2

/-- Body of the loop of `handle_rune_edicts` (lines 565-607) for one edict:
edicts with id `(0,0)` are skipped (they belong to the etching), the
watchlist filter may reject, the rune id is resolved through the cache
(`resolve`), and the amount is allocated — split across all non-`OP_RETURN`
outputs when `output == tx.output.len()` (the `u128` division panics when
there are none, modelled as `none`), otherwise credited to the single output
`output` (an out-of-range index panics, modelled as `none`). -/
def process_edict (filterOn : Bool) (watch : List (Nat × Nat))
    (resolve : Nat → Nat → Option RuneName) (outs : List TxOut)
    (al : List AllocMap) (e : Edict) : Option (List AllocMap × Bool) :=
  if e.idBlock = 0 ∧ e.idTx = 0 then some (al, true)
  else if filterOn ∧ (e.idBlock, e.idTx) ∉ watch then some (al, false)
  else
    match resolve e.idBlock e.idTx with
    | none => some (al, false)
    | some rune =>
        if e.output = outs.length then
          let nonOp := get_non_opreturn_outputs outs
          if nonOp.length = 0 then none
          else
            (bump_many (fun a => { a with edict := a.edict + e.amount / nonOp.length })
                rune nonOp al).map (fun x => (x, true))
        else
          (bumpAt al e.output rune
              (fun a => { a with edict := a.edict + e.amount })).map (fun x => (x, true))

/-- `handle_rune_edicts` (lines 559-610): process the edicts in order,
aborting with `false` as the Rust code returns early. -/
def handle_rune_edicts (filterOn : Bool) (watch : List (Nat × Nat))
    (resolve : Nat → Nat → Option RuneName) (outs : List TxOut) :
    List Edict → List AllocMap → Option (List AllocMap × Bool)
  | [], al => some (al, true)
  | e :: rest, al =>
      match process_edict filterOn watch resolve outs al e with
      | none => none
      | some (al2, false) => some (al2, false)
      | some (al2, true) => handle_rune_edicts filterOn watch resolve outs rest al2

/-- The premine edict loop of `handle_rune_etching` (lines 481-509): edicts
with id `(0,0)` allocate their amount to the `etching` field, split across
non-`OP_RETURN` outputs when `output == tx.output.len()`; `has_some_outs`
records whether any `(0,0)` edict was seen. -/
def etching_premine_edicts (rune : RuneName) (outs : List TxOut) :
    List Edict → List AllocMap → Bool → Option (List AllocMap × Bool)
  | [], al, hasSomeOuts => some (al, hasSomeOuts)
  | e :: rest, al, hasSomeOuts =>
      if e.idBlock = 0 ∧ e.idTx = 0 then
        if e.output = outs.length then
          let nonOp := get_non_opreturn_outputs outs
          if nonOp.length = 0 then none
          else
            match bump_many
                (fun a => { a with etching := a.etching + e.amount / nonOp.length })
                rune nonOp al with
            | none => none
            | some al2 => etching_premine_edicts rune outs rest al2 true
        else
          match bumpAt al e.output rune
              (fun a => { a with etching := a.etching + e.amount }) with
          | none => none
          | some al2 => etching_premine_edicts rune outs rest al2 true
      else etching_premine_edicts rune outs rest al hasSomeOuts

/-- The premine-routing tail of `handle_rune_etching` (lines 466-510), after
the rune row has been stored: nothing to do when the premine is zero; when
`extract_premine_address` finds an output the premine is allocated there;
otherwise the etching is kept only when it carries `(0,0)` edicts. -/
def handle_etching_allocation (rune : RuneName) (premine : Nat)
    (pointer : Option Nat) (edicts : List Edict) (outs : List TxOut)
    (al : List AllocMap) : Option (List AllocMap × Bool) :=
  if premine = 0 then some (al, true)
  else
    match extract_premine_address pointer outs with
    | some vout =>
        match bumpAt al vout rune (fun a => { a with etching := a.etching + premine }) with
        | none => none
        | some al2 => some (al2, true)
    | none =>
        if edicts.isEmpty then some (al, false)
        else etching_premine_edicts rune outs edicts al false

/-- The `unallocated` input amounts `HashMap<rune_name, u128>`, as an
association list (one entry per rune). -/
abbrev UnallocMap := List (RuneName × Nat)

/-- Map lookup, defaulting to zero. -/
def UnallocMap.get (u : UnallocMap) (r : RuneName) : Nat :=
  match u with
  | [] => 0
  | (k, v) :: rest => if k = r then v else UnallocMap.get rest r

/-- `*unallocated.entry(r).or_default() -= amt`.  Subtraction is truncated:
in Rust an underflow would panic, but `apply_allocations` only subtracts
after the phase-1 check has bounded the totals, so no reachable call
underflows and truncated subtraction coincides with the exact one. -/
def UnallocMap.dec (u : UnallocMap) (r : RuneName) (amt : Nat) : UnallocMap :=
  match u with
  | [] => [(r, 0 - amt)]
  | (k, v) :: rest =>
      if k = r then (k, v - amt) :: rest else (k, v) :: UnallocMap.dec rest r amt

/-- A `RuneUtxo` row as written by `apply_allocations`; the fields that are
constant across one transaction (block, tx index, txid, script hex, spent
flag) are omitted. -/
structure RuneUtxoRow where
  vout : Nat
  rune : RuneName
  address : Addr
  amount : Nat
deriving Repr, DecidableEq

/-- Total edict allocation of rune `r` summed over all outputs (the
`total_out` map of phase 1 of `apply_allocations`). -/
def total_edict (al : List AllocMap) (r : RuneName) : Nat :=
  (al.map (fun m => (AllocMap.get m r).edict)).sum

/-- Phase 1 of `apply_allocations` (lines 619-645): for every rune appearing
in the allocations, the edict total must not exceed the unallocated input
amount. -/
def phase1_ok (u : UnallocMap) (al : List AllocMap) : Bool :=
  ((al.map (fun m => m.map Prod.fst)).flatten).all
    (fun r => decide (total_edict al r ≤ UnallocMap.get u r))

/-- Phase 2 of `apply_allocations` (lines 648-694): walk the per-output
allocation maps; for each allocated output decode its address (returning
`false` — with the rows written so far already persisted — when it is
invalid), write one `RuneUtxo` row per rune with
`amount = edict + mint + etching`, and subtract each edict amount from the
unallocated map.  Indexing `tx.output[vout]` out of range is a panic
(`none`). -/
def phase2 (outs : List TxOut) :
    List (Nat × AllocMap) → UnallocMap → Option (List RuneUtxoRow × UnallocMap × Bool)
  | [], u => some ([], u, true)
  | (vout, m) :: rest, u =>
      if m.isEmpty then phase2 outs rest u
      else
        match outs[vout]? with
        | none => none
        | some out =>
            match out.script.address with
            | none => some ([], u, false)
            | some addr =>
                let rows := m.map
                  (fun p => RuneUtxoRow.mk vout p.1 addr (p.2.edict + p.2.mint + p.2.etching))
                let u2 := m.foldl (fun acc p => UnallocMap.dec acc p.1 p.2.edict) u
                match phase2 outs rest u2 with
                | none => none
                | some (rows2, u3, ok) => some (rows ++ rows2, u3, ok)

/-- Phase 3 of `apply_allocations` (lines 713-739): one change `RuneUtxo` row
per rune with a non-zero remaining unallocated amount. -/
def change_rows (u : UnallocMap) (vout : Nat) (addr : Addr) : List RuneUtxoRow :=
  u.filterMap (fun p => if p.2 = 0 then none else some (RuneUtxoRow.mk vout p.1 addr p.2))

/-- `apply_allocations` (lines 612-742).  Returns the `RuneUtxo` rows written
to the store (they are inserted one by one, outside any store transaction, so
rows written before a failure persist) and the boolean result; `none` models
the out-of-bounds panic on `tx.output[change_vout]`. -/
def apply_allocations (u : UnallocMap) (al : List AllocMap) (outs : List TxOut)
    (pointer : Option Nat) : Option (List RuneUtxoRow × Bool) :=
  if !(phase1_ok u al) then some ([], false)
  else
    match phase2 outs al.enum u with
    | none => none
    | some (rows, u2, ok) =>
        if !ok then some (rows, false)
        else
          match get_change_output outs pointer with
          | none => some (rows, false)
          | some c =>
              match outs[c]? with
              | none => none
              | some out =>
                  match out.script.address with
                  | none => some (rows, false)
                  | some addr => some (rows ++ change_rows u2 c addr, true)

/-- Total edict allocation of rune `r` over a list of `(vout, map)` entries
(the shape `phase2` consumes). -/
def sum_edict_entries (l : List (Nat × AllocMap)) (r : RuneName) : Nat :=
  (l.map (fun p => (AllocMap.get p.2 r).edict)).sum

/-- The output characterised by `premine_scan` with start flag `found`:
position `k` holds an `OP_RETURN`+magic output, and either the flag was
already set or some earlier output starts with `OP_RETURN` without the magic
number. -/
def scanTarget (l : List TxOut) (found : Bool) (k : Nat) : Prop :=
  (∃ o, l[k]? = some o ∧ o.script = Script.opRet true) ∧
  (found = true ∨ ∃ j o2, j < k ∧ l[j]? = some o2 ∧ o2.script = Script.opRet false)

/-! ## Helper lemmas -/

theorem wadd128_eq (a b : Nat) (h : a + b < U128MOD) : wadd128 a b = a + b :=
  Nat.mod_eq_of_lt h

theorem wsub128_eq (a b : Nat) (hb : b ≤ a) (ha : a < U128MOD) :
    wsub128 a b = a - b := by
  unfold wsub128
  have h1 : a + U128MOD - b = (a - b) + U128MOD := by omega
  rw [h1, Nat.add_mod_right]
  exact Nat.mod_eq_of_lt (by omega)

/-! ## Claim theorems: watchdog, rune entity, fee, commitment builder -/

/-- C9: for every rune entity and every amount, `add_mint` is checked on the
`minted` field: on `u128` overflow `minted` keeps its previous value and the
call returns `false`; otherwise `minted` grows by exactly `amount` and the
call returns `true`. -/
theorem claim_C9_add_mint_checked (e : RuneEntity) (amount : Nat) :
    (U128MOD ≤ e.minted + amount →
      (e.add_mint amount).1.minted = e.minted ∧ (e.add_mint amount).2 = false)
    ∧ (e.minted + amount < U128MOD →
      (e.add_mint amount).1.minted = e.minted + amount ∧ (e.add_mint amount).2 = true) := by
  constructor
  · intro h
    have hc : ¬ (e.minted + amount < U128MOD) := by omega
    simp [RuneEntity.add_mint, hc]
  · intro h
    simp [RuneEntity.add_mint, h]

/-- Witness for C9 at a concrete overflowing input. -/
theorem claim_C9_add_mint_checked_witness :
    U128MOD ≤ (U128MOD - 1) + 2
    ∧ ((RuneEntity.mk "R" 0 (U128MOD - 1) 0).add_mint 2).1.minted = U128MOD - 1
    ∧ ((RuneEntity.mk "R" 0 (U128MOD - 1) 0).add_mint 2).2 = false := by
  have h := (claim_C9_add_mint_checked (RuneEntity.mk "R" 0 (U128MOD - 1) 0) 2).1 (by decide)
  exact ⟨by decide, h.1, h.2⟩

/-- C7 counterexample: a rounded percentage of 1500 sats is at least 1000,
yet the charged fee is 1000, not the rounded value — the code floors at 2000,
not at 1000 as the claim states (1500 is realised e.g. by
`btc_amount = 100000`, `fee_percent = 1.5`, for which the `f64` computation
is exact). -/
theorem claim_C7_counterexample :
    1000 ≤ (1500 : Nat)
    ∧ service_fee_amount 1500 = 1000
    ∧ service_fee_spec 1500 = 1500
    ∧ (1000 : Nat) ≠ 1500 := by decide

/-- C7 (amended): the charged service fee is 1000 sats whenever the rounded
percentage is below 2000 sats and equals the rounded percentage otherwise
(so it is never below 1000, but equals the rounded value only from 2000 up),
and it is divided evenly — `u64` integer division — across the destination
addresses, one appended output per address. -/
theorem claim_C7_amended (rounded fee : Nat) (destination : List Addr) :
    1000 ≤ service_fee_amount rounded
    ∧ (2000 ≤ rounded → service_fee_amount rounded = rounded)
    ∧ (rounded < 2000 → service_fee_amount rounded = 1000)
    ∧ (service_fee_outputs fee destination).length = destination.length
    ∧ (∀ p ∈ service_fee_outputs fee destination, p.2 = fee / destination.length)
    ∧ (service_fee_outputs fee destination).map Prod.fst = destination := by
  refine ⟨?_, ?_, ?_, ?_, ?_, ?_⟩
  · unfold service_fee_amount; split <;> omega
  · intro h; unfold service_fee_amount; split <;> omega
  · intro h; simp [service_fee_amount, h]
  · simp [service_fee_outputs]
  · intro p hp
    simp only [service_fee_outputs, List.mem_map] at hp
    obtain ⟨a, _, rfl⟩ := hp
    rfl
  · unfold service_fee_outputs
    rw [List.map_map]
    have hcomp : (Prod.fst ∘ fun a : Addr => (a, fee / destination.length)) = id := rfl
    rw [hcomp, List.map_id]

/-- Witness for C7 (amended) at a concrete input. -/
theorem claim_C7_amended_witness :
    2000 ≤ (2500 : Nat) ∧ service_fee_amount 2500 = 2500 :=
  ⟨by decide, (claim_C7_amended 2500 3000 ["fee-addr"]).2.1 (by decide)⟩

/-- C8: with one etching (out amount 100000 sats) and a single 50000-sat
funding utxo, `create_commitment_tx` reaches the `u64` subtraction
`in_value - out_amount` with `in_value < out_amount`: there is no
`InsufficientFunds` error path — the builder underflows (panic in a debug
build, wrap-around change in release), modelled as `none`. -/
theorem claim_C8_no_insufficient_funds_error :
    create_commitment_tx 1 100000 [⟨"funding", 0, 50000⟩] 0 = none := by decide

/-- C6: on the failure path the watchdog calls
`update_liquidity_change_request` with the request uid passed as the
`tx_hash` argument, so the change request's recorded submitted txid is
overwritten with the request uid instead of being left unchanged (both
statuses are set to failed as claimed). -/
theorem claim_C6_submitted_txid_overwritten :
    watchdog_step ChainQuery.failure 3600
        ⟨⟨0, 0⟩, ⟨0, 0⟩, ⟨"req-1", 7, "addrA", 100, 2000, "add", "new", "deadbeef"⟩,
          ⟨"deadbeef", "req-1", "pending"⟩⟩
      = ⟨⟨0, 0⟩, ⟨0, 0⟩, ⟨"req-1", 7, "addrA", 100, 2000, "add", "failed", "req-1"⟩,
          ⟨"deadbeef", "req-1", "failed"⟩⟩
    ∧ ("req-1" : String) ≠ "deadbeef" := by decide

/-- C5: for a pending tx whose chain query succeeds with at least 2
confirmations, one watchdog step applies exactly the action-specific delta
to the trading pair (add: both +, remove: both −, swap-direct: base +
quote −, swap-reverse: base − quote +), updates the liquidity provider row
for add/remove only, marks the request done and the submitted tx mined — one
simultaneous (store-transactional) update; with fewer than 2 confirmations
nothing changes. -/
theorem claim_C5_watchdog_reconcile (s : WatchState) (conf : Nat) (age : Int) :
    (conf < 2 → watchdog_step (ChainQuery.success conf) age s = s)
    ∧ (2 ≤ conf → s.request.action = "add" →
        s.pair.baseBalance + s.request.baseAmount < U128MOD →
        s.pair.quoteBalance + s.request.quoteAmount < U128MOD →
        s.lp.baseAmount + s.request.baseAmount < U128MOD →
        s.lp.quoteAmount + s.request.quoteAmount < U128MOD →
        watchdog_step (ChainQuery.success conf) age s =
          ⟨⟨s.pair.baseBalance + s.request.baseAmount,
            s.pair.quoteBalance + s.request.quoteAmount⟩,
            ⟨s.lp.baseAmount + s.request.baseAmount,
              s.lp.quoteAmount + s.request.quoteAmount⟩,
            { s.request with status := "done", txHash := s.tx.txHash },
            { s.tx with status := "mined" }⟩)
    ∧ (2 ≤ conf → s.request.action = "remove" →
        s.request.baseAmount ≤ s.pair.baseBalance →
        s.request.quoteAmount ≤ s.pair.quoteBalance →
        s.pair.baseBalance < U128MOD → s.pair.quoteBalance < U128MOD →
        s.request.baseAmount ≤ s.lp.baseAmount →
        s.request.quoteAmount ≤ s.lp.quoteAmount →
        s.lp.baseAmount < U128MOD → s.lp.quoteAmount < U128MOD →
        watchdog_step (ChainQuery.success conf) age s =
          ⟨⟨s.pair.baseBalance - s.request.baseAmount,
            s.pair.quoteBalance - s.request.quoteAmount⟩,
            ⟨s.lp.baseAmount - s.request.baseAmount,
              s.lp.quoteAmount - s.request.quoteAmount⟩,
            { s.request with status := "done", txHash := s.tx.txHash },
            { s.tx with status := "mined" }⟩)
    ∧ (2 ≤ conf → s.request.action = "swap-direct" →
        s.pair.baseBalance + s.request.baseAmount < U128MOD →
        s.request.quoteAmount ≤ s.pair.quoteBalance →
        s.pair.quoteBalance < U128MOD →
        watchdog_step (ChainQuery.success conf) age s =
          ⟨⟨s.pair.baseBalance + s.request.baseAmount,
            s.pair.quoteBalance - s.request.quoteAmount⟩,
            s.lp,
            { s.request with status := "done", txHash := s.tx.txHash },
            { s.tx with status := "mined" }⟩)
    ∧ (2 ≤ conf → s.request.action = "swap-reverse" →
        s.request.baseAmount ≤ s.pair.baseBalance →
        s.pair.baseBalance < U128MOD →
        s.pair.quoteBalance + s.request.quoteAmount < U128MOD →
        watchdog_step (ChainQuery.success conf) age s =
          ⟨⟨s.pair.baseBalance - s.request.baseAmount,
            s.pair.quoteBalance + s.request.quoteAmount⟩,
            s.lp,
            { s.request with status := "done", txHash := s.tx.txHash },
            { s.tx with status := "mined" }⟩) := by
  refine ⟨?_, ?_, ?_, ?_, ?_⟩
  · intro h
    simp [watchdog_step, h]
  · intro hc ha h1 h2 h3 h4
    have hnc : ¬ conf < 2 := by omega
    simp [watchdog_step, hnc, ha, process_change_liquidity,
      wadd128_eq _ _ h1, wadd128_eq _ _ h2, wadd128_eq _ _ h3, wadd128_eq _ _ h4]
  · intro hc ha hb1 hb2 hb3 hb4 hb5 hb6 hb7 hb8
    have hnc : ¬ conf < 2 := by omega
    simp [watchdog_step, hnc, ha, process_change_liquidity,
      wsub128_eq _ _ hb1 hb3, wsub128_eq _ _ hb2 hb4,
      wsub128_eq _ _ hb5 hb7, wsub128_eq _ _ hb6 hb8]
  · intro hc ha h1 h2 h3
    have hnc : ¬ conf < 2 := by omega
    simp [watchdog_step, hnc, ha, process_change_liquidity,
      wadd128_eq _ _ h1, wsub128_eq _ _ h2 h3]
  · intro hc ha h1 h2 h3
    have hnc : ¬ conf < 2 := by omega
    simp [watchdog_step, hnc, ha, process_change_liquidity,
      wsub128_eq _ _ h1 h2, wadd128_eq _ _ h3]

/-- Witness for C5: a concrete add-liquidity reconciliation at 3
confirmations. -/
theorem claim_C5_watchdog_reconcile_witness :
    watchdog_step (ChainQuery.success 3) 0
        ⟨⟨500, 1000⟩, ⟨50, 100⟩, ⟨"req-7", 7, "addrA", 100, 2000, "add", "new", ""⟩,
          ⟨"txh", "req-7", "pending"⟩⟩
      = ⟨⟨600, 3000⟩, ⟨150, 2100⟩, ⟨"req-7", 7, "addrA", 100, 2000, "add", "done", "txh"⟩,
          ⟨"txh", "req-7", "mined"⟩⟩ :=
  (claim_C5_watchdog_reconcile
      ⟨⟨500, 1000⟩, ⟨50, 100⟩, ⟨"req-7", 7, "addrA", 100, 2000, "add", "new", ""⟩,
        ⟨"txh", "req-7", "pending"⟩⟩ 3 0).2.1
    (by decide) rfl (by decide) (by decide) (by decide) (by decide)

/-! ## Allocation map lemmas -/

theorem AllocMap.get_update (m : AllocMap) (r r' : RuneName) (f : Allocation → Allocation) :
    AllocMap.get (AllocMap.update m r f) r' =
      if r' = r then f (AllocMap.get m r') else AllocMap.get m r' := by
  induction m with
  | nil =>
      simp only [AllocMap.update, AllocMap.get]
      by_cases h : r' = r
      · simp [h]
      · simp [h, show ¬ r = r' from fun hh => h hh.symm]
  | cons p rest ih =>
      obtain ⟨k, a⟩ := p
      by_cases hkr : k = r
      · subst hkr
        by_cases hk' : k = r'
        · subst hk'
          simp [AllocMap.update, AllocMap.get]
        · simp [AllocMap.update, AllocMap.get, hk',
            show ¬ r' = k from fun hh => hk' hh.symm]
      · by_cases hk' : k = r'
        · subst hk'
          simp [AllocMap.update, AllocMap.get, hkr,
            show ¬ k = r from hkr]
        · simp [AllocMap.update, AllocMap.get, hkr, hk', ih]

theorem bumpAt_eq_none (al : List AllocMap) (i : Nat) (r : RuneName)
    (f : Allocation → Allocation) : bumpAt al i r f = none ↔ al.length ≤ i := by
  induction al generalizing i with
  | nil => simp [bumpAt]
  | cons m rest ih =>
      cases i with
      | zero => simp [bumpAt]
      | succ v =>
          simp only [bumpAt, List.length_cons, Option.map_eq_none']
          rw [ih]
          omega

theorem bumpAt_spec (al : List AllocMap) (i : Nat) (r : RuneName)
    (f : Allocation → Allocation) (al2 : List AllocMap)
    (h : bumpAt al i r f = some al2) :
    al2.length = al.length ∧
    ∀ j r', allocGetAt al2 j r' =
      if j = i ∧ r' = r then f (allocGetAt al j r') else allocGetAt al j r' := by
  induction al generalizing i al2 with
  | nil => simp [bumpAt] at h
  | cons m rest ih =>
      cases i with
      | zero =>
          simp only [bumpAt, Option.some.injEq] at h
          subst h
          refine ⟨rfl, ?_⟩
          intro j r'
          cases j with
          | zero =>
              simp only [allocGetAt, List.getElem?_cons_zero, Option.getD_some]
              rw [AllocMap.get_update]
              simp
          | succ jj =>
              simp [allocGetAt, List.getElem?_cons_succ,
                show ¬ (jj + 1 = 0) from by omega]
      | succ v =>
          simp only [bumpAt] at h
          cases hb : bumpAt rest v r f with
          | none => rw [hb] at h; simp at h
          | some al3 =>
              rw [hb] at h
              simp only [Option.map_some', Option.some.injEq] at h
              subst h
              obtain ⟨hlen, hpt⟩ := ih v al3 hb
              refine ⟨by simp [hlen], ?_⟩
              intro j r'
              cases j with
              | zero =>
                  simp [allocGetAt, show ¬ (0 = v + 1) from by omega]
              | succ jj =>
                  simp only [allocGetAt, List.getElem?_cons_succ]
                  have hj := hpt jj r'
                  simp only [allocGetAt] at hj
                  rw [hj]
                  by_cases hjv : jj = v
                  · simp [hjv]
                  · simp [hjv, show ¬ (jj + 1 = v + 1) from by omega]

theorem bump_many_spec (f : Allocation → Allocation) (r : RuneName)
    (l : List (Nat × TxOut)) (al : List AllocMap)
    (hnd : (l.map Prod.fst).Nodup) (hlt : ∀ p ∈ l, p.1 < al.length) :
    ∃ al2, bump_many f r l al = some al2 ∧ al2.length = al.length ∧
      ∀ j r', allocGetAt al2 j r' =
        if j ∈ l.map Prod.fst ∧ r' = r then f (allocGetAt al j r')
        else allocGetAt al j r' := by
  induction l generalizing al with
  | nil => exact ⟨al, rfl, rfl, by simp⟩
  | cons p rest ih =>
      have hp1 : p.1 < al.length := hlt p (List.mem_cons_self _ _)
      obtain ⟨al1, h1⟩ : ∃ al1, bumpAt al p.1 r f = some al1 := by
        cases hb : bumpAt al p.1 r f with
        | none =>
            have := (bumpAt_eq_none al p.1 r f).mp hb
            omega
        | some x => exact ⟨x, rfl⟩
      obtain ⟨hlen1, hpt1⟩ := bumpAt_spec al p.1 r f al1 h1
      have hnd' : (rest.map Prod.fst).Nodup := by
        simp only [List.map_cons, List.nodup_cons] at hnd
        exact hnd.2
      have hmem : p.1 ∉ rest.map Prod.fst := by
        simp only [List.map_cons, List.nodup_cons] at hnd
        exact hnd.1
      obtain ⟨al2, h2, hlen2, hpt2⟩ := ih al1 hnd' (fun q hq => by
        rw [hlen1]; exact hlt q (List.mem_cons_of_mem _ hq))
      refine ⟨al2, ?_, by rw [hlen2, hlen1], ?_⟩
      · simp [bump_many, h1, h2]
      · intro j r'
        rw [hpt2 j r', hpt1 j r']
        by_cases hr' : r' = r
        · subst hr'
          by_cases hj : j ∈ rest.map Prod.fst
          · have hjne : ¬ j = p.1 := fun hh => hmem (hh ▸ hj)
            have hcons : j ∈ (p :: rest).map Prod.fst := by
              simp only [List.map_cons, List.mem_cons]
              exact Or.inr hj
            rw [if_pos ⟨hj, rfl⟩, if_neg (by simp [hjne]), if_pos ⟨hcons, rfl⟩]
          · by_cases hjq : j = p.1
            · have hcons : j ∈ (p :: rest).map Prod.fst := by
                simp only [List.map_cons, List.mem_cons]
                exact Or.inl hjq
              rw [if_neg (by simp [hj]), if_pos ⟨hjq, rfl⟩, if_pos ⟨hcons, rfl⟩]
            · have hcons : ¬ j ∈ (p :: rest).map Prod.fst := by
                simp only [List.map_cons, List.mem_cons]
                rintro (h | h)
                · exact hjq h
                · exact hj h
              rw [if_neg (by simp [hj]), if_neg (by simp [hjq]),
                if_neg (fun hh => hcons hh.1)]
        · rw [if_neg (fun hh => hr' hh.2), if_neg (fun hh => hr' hh.2),
            if_neg (fun hh => hr' hh.2)]

theorem nonop_fst_nodup (outs : List TxOut) :
    ((get_non_opreturn_outputs outs).map Prod.fst).Nodup := by
  have h1 : List.Sublist (get_non_opreturn_outputs outs) outs.enum :=
    List.filter_sublist _
  have h2 := h1.map Prod.fst
  rw [List.enum_map_fst] at h2
  exact h2.nodup (List.nodup_range _)

theorem mem_nonop_lt (outs : List TxOut) (p : Nat × TxOut)
    (hp : p ∈ get_non_opreturn_outputs outs) : p.1 < outs.length := by
  have h1 : p ∈ outs.enum := List.mem_of_mem_filter hp
  have h2 : p.1 ∈ outs.enum.map Prod.fst := List.mem_map_of_mem _ h1
  rw [List.enum_map_fst] at h2
  exact List.mem_range.mp h2

/-- C3: processing one edict of a transaction (the loop body of
`handle_rune_edicts`): when the edict's output field equals the number of
transaction outputs, the amount is divided (integer division, remainder
lost) by the number of non-`OP_RETURN` outputs — assumed non-empty, as the
division panics otherwise — and the quotient is added to the edict
allocation of each non-`OP_RETURN` output; for any smaller output field the
full amount is added to that single output, everything else unchanged. -/
theorem claim_C3_edict_allocation (resolve : Nat → Nat → Option RuneName)
    (outs : List TxOut) (al : List AllocMap) (e : Edict) (r : RuneName)
    (hlen : al.length = outs.length)
    (hid : ¬(e.idBlock = 0 ∧ e.idTx = 0))
    (hres : resolve e.idBlock e.idTx = some r) :
    (e.output = outs.length → get_non_opreturn_outputs outs ≠ [] →
      ∃ al2, process_edict false [] resolve outs al e = some (al2, true) ∧
        ∀ i r', allocGetAt al2 i r' =
          if i ∈ (get_non_opreturn_outputs outs).map Prod.fst ∧ r' = r then
            { allocGetAt al i r' with edict :=
                (allocGetAt al i r').edict
                  + e.amount / (get_non_opreturn_outputs outs).length }
          else allocGetAt al i r')
    ∧ (e.output < outs.length →
      ∃ al2, process_edict false [] resolve outs al e = some (al2, true) ∧
        ∀ i r', allocGetAt al2 i r' =
          if i = e.output ∧ r' = r then
            { allocGetAt al i r' with edict := (allocGetAt al i r').edict + e.amount }
          else allocGetAt al i r') := by
  constructor
  · intro hout hne
    have hlen0 : ¬ ((get_non_opreturn_outputs outs).length = 0) := by
      simpa [List.length_eq_zero] using hne
    obtain ⟨al2, hb, hlen2, hpt⟩ := bump_many_spec
      (fun a => { a with edict :=
        a.edict + e.amount / (get_non_opreturn_outputs outs).length })
      r (get_non_opreturn_outputs outs) al (nonop_fst_nodup outs)
      (fun p hp => by rw [hlen]; exact mem_nonop_lt outs p hp)
    refine ⟨al2, ?_, hpt⟩
    simp [process_edict, hid, hres, hout, hlen0, hb]
  · intro hout
    have hne : ¬ (e.output = outs.length) := by omega
    obtain ⟨al2, hb⟩ : ∃ x, bumpAt al e.output r
        (fun a => { a with edict := a.edict + e.amount }) = some x := by
      cases hbb : bumpAt al e.output r (fun a => { a with edict := a.edict + e.amount }) with
      | none =>
          have := (bumpAt_eq_none al e.output r _).mp hbb
          omega
      | some x => exact ⟨x, rfl⟩
    obtain ⟨hlen2, hpt⟩ := bumpAt_spec al e.output r _ al2 hb
    refine ⟨al2, ?_, fun i r' => by rw [hpt i r']⟩
    simp [process_edict, hid, hres, hne, hb]

/-- Witness for C3: a split edict (`output = 3` on a 3-output transaction)
with 100 units divided across the two non-`OP_RETURN` outputs. -/
theorem claim_C3_edict_allocation_witness :
    ∃ al2,
      process_edict false []
          (fun b t => if b = 840000 ∧ t = 1 then some "R" else none)
          [⟨Script.opRet true, 0⟩, ⟨Script.pay (some "a"), 600⟩, ⟨Script.pay (some "b"), 600⟩]
          [[], [], []] ⟨840000, 1, 100, 3⟩
        = some (al2, true) ∧
      ∀ i r', allocGetAt al2 i r' =
        if i ∈ (get_non_opreturn_outputs
              [⟨Script.opRet true, 0⟩, ⟨Script.pay (some "a"), 600⟩,
                ⟨Script.pay (some "b"), 600⟩]).map Prod.fst ∧ r' = "R" then
          { allocGetAt [[], [], []] i r' with edict :=
              (allocGetAt [[], [], []] i r').edict
                + 100 / (get_non_opreturn_outputs
                    [⟨Script.opRet true, 0⟩, ⟨Script.pay (some "a"), 600⟩,
                      ⟨Script.pay (some "b"), 600⟩]).length }
        else allocGetAt [[], [], []] i r' :=
  (claim_C3_edict_allocation
      (fun b t => if b = 840000 ∧ t = 1 then some "R" else none)
      [⟨Script.opRet true, 0⟩, ⟨Script.pay (some "a"), 600⟩, ⟨Script.pay (some "b"), 600⟩]
      [[], [], []] ⟨840000, 1, 100, 3⟩ "R"
      (by decide) (by decide) (by decide)).1 rfl (by decide)

/-! ## Premine scan lemmas -/

theorem scanTarget_zero (o : TxOut) (rest : List TxOut) (found : Bool) :
    scanTarget (o :: rest) found 0 ↔ (o.script = Script.opRet true ∧ found = true) := by
  unfold scanTarget
  constructor
  · rintro ⟨⟨o2, ho2, hs⟩, hdisj⟩
    simp only [List.getElem?_cons_zero, Option.some.injEq] at ho2
    subst ho2
    refine ⟨hs, ?_⟩
    rcases hdisj with h | ⟨j, o3, hj, -, -⟩
    · exact h
    · omega
  · rintro ⟨hs, hf⟩
    exact ⟨⟨o, by simp, hs⟩, Or.inl hf⟩

theorem scanTarget_succ (o : TxOut) (rest : List TxOut) (found : Bool) (k : Nat)
    (h0 : ¬ o.script = Script.opRet false) :
    scanTarget (o :: rest) found (k + 1) ↔ scanTarget rest found k := by
  unfold scanTarget
  simp only [List.getElem?_cons_succ]
  constructor
  · rintro ⟨hfst, hsnd⟩
    refine ⟨hfst, ?_⟩
    rcases hsnd with h | ⟨j, o2, hj, hje, hjs⟩
    · exact Or.inl h
    · cases j with
      | zero =>
          simp only [List.getElem?_cons_zero, Option.some.injEq] at hje
          subst hje
          exact absurd hjs h0
      | succ jj =>
          simp only [List.getElem?_cons_succ] at hje
          exact Or.inr ⟨jj, o2, by omega, hje, hjs⟩
  · rintro ⟨hfst, hsnd⟩
    refine ⟨hfst, ?_⟩
    rcases hsnd with h | ⟨j, o2, hj, hje, hjs⟩
    · exact Or.inl h
    · exact Or.inr ⟨j + 1, o2, by omega, by simpa using hje, hjs⟩

theorem scanTarget_succ_setflag (o : TxOut) (rest : List TxOut) (found : Bool) (k : Nat)
    (h0 : o.script = Script.opRet false) :
    scanTarget (o :: rest) found (k + 1) ↔ scanTarget rest true k := by
  unfold scanTarget
  simp only [List.getElem?_cons_succ]
  constructor
  · rintro ⟨hfst, -⟩
    exact ⟨hfst, Or.inl (by simp)⟩
  · rintro ⟨hfst, -⟩
    exact ⟨hfst, Or.inr ⟨0, o, by omega, by simp, h0⟩⟩

theorem premine_scan_sound (l : List TxOut) :
    ∀ (found : Bool) (i v : Nat), premine_scan l i found = some v →
      i ≤ v ∧ scanTarget l found (v - i) ∧ ∀ w, w < v - i → ¬ scanTarget l found w := by
  induction l with
  | nil =>
      intro found i v h
      simp [premine_scan] at h
  | cons o rest ih =>
      intro found i v h
      obtain ⟨s, value⟩ := o
      cases s with
      | pay a =>
          have h2 : premine_scan rest (i + 1) found = some v := by
            simpa [premine_scan] using h
          obtain ⟨hle, htgt, hleast⟩ := ih found (i + 1) v h2
          have hvi : v - i = (v - (i + 1)) + 1 := by omega
          refine ⟨by omega, ?_, ?_⟩
          · rw [hvi, scanTarget_succ _ _ _ _ (by simp)]
            exact htgt
          · intro w hw
            cases w with
            | zero =>
                rw [scanTarget_zero]
                rintro ⟨h1, -⟩
                simp at h1
            | succ ww =>
                rw [scanTarget_succ _ _ _ _ (by simp)]
                exact hleast ww (by omega)
      | opRet magic =>
          cases magic with
          | false =>
              have h2 : premine_scan rest (i + 1) true = some v := by
                simpa [premine_scan] using h
              obtain ⟨hle, htgt, hleast⟩ := ih true (i + 1) v h2
              have hvi : v - i = (v - (i + 1)) + 1 := by omega
              refine ⟨by omega, ?_, ?_⟩
              · rw [hvi, scanTarget_succ_setflag _ _ _ _ rfl]
                exact htgt
              · intro w hw
                cases w with
                | zero =>
                    rw [scanTarget_zero]
                    rintro ⟨h1, -⟩
                    simp at h1
                | succ ww =>
                    rw [scanTarget_succ_setflag _ _ _ _ rfl]
                    exact hleast ww (by omega)
          | true =>
              cases found with
              | true =>
                  have hv : v = i := by
                    have := h
                    simp [premine_scan] at this
                    omega
                  subst hv
                  refine ⟨Nat.le_refl _, ?_, ?_⟩
                  · rw [Nat.sub_self, scanTarget_zero]
                    exact ⟨rfl, rfl⟩
                  · intro w hw
                    omega
              | false =>
                  have h2 : premine_scan rest (i + 1) false = some v := by
                    simpa [premine_scan] using h
                  obtain ⟨hle, htgt, hleast⟩ := ih false (i + 1) v h2
                  have hvi : v - i = (v - (i + 1)) + 1 := by omega
                  refine ⟨by omega, ?_, ?_⟩
                  · rw [hvi, scanTarget_succ _ _ _ _ (by simp)]
                    exact htgt
                  · intro w hw
                    cases w with
                    | zero =>
                        rw [scanTarget_zero]
                        rintro ⟨-, h1⟩
                        simp at h1
                    | succ ww =>
                        rw [scanTarget_succ _ _ _ _ (by simp)]
                        exact hleast ww (by omega)

theorem premine_scan_none (l : List TxOut) :
    ∀ (found : Bool) (i : Nat), premine_scan l i found = none →
      ∀ k, ¬ scanTarget l found k := by
  induction l with
  | nil =>
      intro found i _ k
      unfold scanTarget
      rintro ⟨⟨o, ho, -⟩, -⟩
      simp at ho
  | cons o rest ih =>
      intro found i h k
      obtain ⟨s, value⟩ := o
      cases s with
      | pay a =>
          have h2 := ih found (i + 1) (by simpa [premine_scan] using h)
          cases k with
          | zero =>
              rw [scanTarget_zero]
              rintro ⟨h1, -⟩
              simp at h1
          | succ kk =>
              rw [scanTarget_succ _ _ _ _ (by simp)]
              exact h2 kk
      | opRet magic =>
          cases magic with
          | false =>
              have h2 := ih true (i + 1) (by simpa [premine_scan] using h)
              cases k with
              | zero =>
                  rw [scanTarget_zero]
                  rintro ⟨h1, -⟩
                  simp at h1
              | succ kk =>
                  rw [scanTarget_succ_setflag _ _ _ _ rfl]
                  exact h2 kk
          | true =>
              cases found with
              | true => simp [premine_scan] at h
              | false =>
                  have h2 := ih false (i + 1) (by simpa [premine_scan] using h)
                  cases k with
                  | zero =>
                      rw [scanTarget_zero]
                      rintro ⟨-, h1⟩
                      simp at h1
                  | succ kk =>
                      rw [scanTarget_succ _ _ _ _ (by simp)]
                      exact h2 kk

theorem etching_premine_edicts_ok (rune : RuneName) (outs : List TxOut) :
    ∀ (l : List Edict) (al al2 : List AllocMap) (b ok : Bool),
      etching_premine_edicts rune outs l al b = some (al2, ok) →
      (ok = true ↔ (b = true ∨ ∃ e ∈ l, e.idBlock = 0 ∧ e.idTx = 0)) := by
  intro l
  induction l with
  | nil =>
      intro al al2 b ok h
      simp only [etching_premine_edicts, Option.some.injEq, Prod.mk.injEq] at h
      obtain ⟨-, h2⟩ := h
      subst h2
      simp
  | cons e rest ih =>
      intro al al2 b ok h
      by_cases hid : e.idBlock = 0 ∧ e.idTx = 0
      · by_cases hout : e.output = outs.length
        · by_cases hlen0 : (get_non_opreturn_outputs outs).length = 0
          · simp [etching_premine_edicts, hid, hout, hlen0] at h
          · cases hb : bump_many
                (fun a => { a with etching :=
                  a.etching + e.amount / (get_non_opreturn_outputs outs).length })
                rune (get_non_opreturn_outputs outs) al with
            | none => simp [etching_premine_edicts, hid, hout, hlen0, hb] at h
            | some al3 =>
                have h2 : etching_premine_edicts rune outs rest al3 true = some (al2, ok) := by
                  simpa [etching_premine_edicts, hid, hout, hlen0, hb] using h
                have hiff := ih al3 al2 true ok h2
                simp only [hiff]
                simp [hid]
        · cases hb : bumpAt al e.output rune
              (fun a => { a with etching := a.etching + e.amount }) with
          | none => simp [etching_premine_edicts, hid, hout, hb] at h
          | some al3 =>
              have h2 : etching_premine_edicts rune outs rest al3 true = some (al2, ok) := by
                simpa [etching_premine_edicts, hid, hout, hb] using h
              have hiff := ih al3 al2 true ok h2
              simp only [hiff]
              simp [hid]
      · have h2 : etching_premine_edicts rune outs rest al b = some (al2, ok) := by
          simpa [etching_premine_edicts, hid] using h
        have hiff := ih al al2 b ok h2
        simp only [hiff]
        simp [hid]

/-- C4 counterexample: an etching with premine 10, no pointer and no edicts,
on outputs `[OP_RETURN (non-magic), pay alice, OP_RETURN+magic]`.  The claim
says the premine goes to output 1 (the first non-`OP_RETURN` output after a
non-magic `OP_RETURN`); the code instead allocates it to output 2, the
runestone `OP_RETURN`+magic output, and output 1 receives nothing. -/
theorem claim_C4_counterexample :
    handle_etching_allocation "R" 10 none []
        [⟨Script.opRet false, 0⟩, ⟨Script.pay (some "alice"), 600⟩, ⟨Script.opRet true, 0⟩]
        [[], [], []]
      = some ([[], [], [("R", ⟨0, 0, 10⟩)]], true)
    ∧ spec_premine_scan
        [⟨Script.opRet false, 0⟩, ⟨Script.pay (some "alice"), 600⟩, ⟨Script.opRet true, 0⟩]
        0 false = some 1
    ∧ allocGetAt [[], [], [("R", ⟨0, 0, 10⟩)]] 1 "R" = Allocation.zero
    ∧ allocGetAt [[], [], [("R", ⟨0, 0, 10⟩)]] 2 "R" = ⟨0, 0, 10⟩
    ∧ (2 : Nat) ≠ 1 := by decide

/-- C4 (amended): for an etching with premine > 0 and no pointer, the premine
is allocated to the first output whose script starts with `OP_RETURN`
followed by the rune magic number and that is preceded by an earlier output
starting with `OP_RETURN` not followed by the magic number (not to a
non-`OP_RETURN` output); when no such output exists the etching is kept
exactly when the runestone carries at least one edict with id `(0,0)` (whose
amounts are then allocated), and rejected otherwise. -/
theorem claim_C4_amended (rune : RuneName) (premine : Nat) (edicts : List Edict)
    (outs : List TxOut) (al : List AllocMap)
    (hprem : ¬ premine = 0) (hlen : al.length = outs.length) :
    (∀ v, premine_scan outs 0 false = some v →
      (scanTarget outs false v ∧ ∀ w, w < v → ¬ scanTarget outs false w) ∧
      ∃ al2, handle_etching_allocation rune premine none edicts outs al = some (al2, true) ∧
        ∀ i r', allocGetAt al2 i r' =
          if i = v ∧ r' = rune then
            { allocGetAt al i r' with etching := (allocGetAt al i r').etching + premine }
          else allocGetAt al i r')
    ∧ (premine_scan outs 0 false = none →
      ∀ al2 ok, handle_etching_allocation rune premine none edicts outs al = some (al2, ok) →
        (ok = true ↔ ∃ e ∈ edicts, e.idBlock = 0 ∧ e.idTx = 0))
    ∧ (premine_scan outs 0 false = none → ¬ ∃ v, scanTarget outs false v) := by
  refine ⟨?_, ?_, ?_⟩
  · intro v hscan
    obtain ⟨hle, htgt, hleast⟩ := premine_scan_sound outs false 0 v hscan
    rw [Nat.sub_zero] at htgt hleast
    refine ⟨⟨htgt, hleast⟩, ?_⟩
    have hv : v < outs.length := by
      obtain ⟨⟨o, ho, -⟩, -⟩ := htgt
      obtain ⟨h1, -⟩ := List.getElem?_eq_some.mp ho
      exact h1
    obtain ⟨al2, hb⟩ : ∃ x, bumpAt al v rune
        (fun a => { a with etching := a.etching + premine }) = some x := by
      cases hbb : bumpAt al v rune (fun a => { a with etching := a.etching + premine }) with
      | none =>
          have := (bumpAt_eq_none al v rune _).mp hbb
          omega
      | some x => exact ⟨x, rfl⟩
    obtain ⟨-, hpt⟩ := bumpAt_spec al v rune _ al2 hb
    refine ⟨al2, ?_, fun i r' => by rw [hpt i r']⟩
    simp [handle_etching_allocation, hprem, extract_premine_address, hscan, hb]
  · intro hscan al2 ok h
    cases edicts with
    | nil =>
        have h2 : al = al2 ∧ false = ok := by
          simpa [handle_etching_allocation, hprem, extract_premine_address, hscan] using h
        obtain ⟨-, hok⟩ := h2
        subst hok
        simp
    | cons e rest =>
        have h2 : etching_premine_edicts rune outs (e :: rest) al false = some (al2, ok) := by
          simpa [handle_etching_allocation, hprem, extract_premine_address, hscan] using h
        have hiff := etching_premine_edicts_ok rune outs (e :: rest) al al2 false ok h2
        simpa using hiff
  · rintro hscan ⟨v, hv⟩
    exact premine_scan_none outs false 0 hscan v hv

/-- Witness for C4 (amended): on outputs
`[OP_RETURN (non-magic), OP_RETURN+magic, pay alice]` the scan selects output
1, which is the least target in the amended sense. -/
theorem claim_C4_amended_witness :
    scanTarget [⟨Script.opRet false, 0⟩, ⟨Script.opRet true, 0⟩,
        ⟨Script.pay (some "alice"), 600⟩] false 1
    ∧ ∀ w, w < 1 → ¬ scanTarget [⟨Script.opRet false, 0⟩, ⟨Script.opRet true, 0⟩,
        ⟨Script.pay (some "alice"), 600⟩] false w :=
  ((claim_C4_amended "R" 10 []
      [⟨Script.opRet false, 0⟩, ⟨Script.opRet true, 0⟩, ⟨Script.pay (some "alice"), 600⟩]
      [[], [], []] (by decide) (by decide)).1 1 (by decide)).1

/-- C1: rejection is not free of partial effects.  With inputs carrying 10 of
rune R and edicts sending 5 to each of two outputs, where output 1's script
has no decodable address, `apply_allocations` rejects the transaction
(second component `false`, after which the caller burns all inputs) — yet the
`RuneUtxo` row for output 0, already inserted into the store before the
failure was detected, survives. -/
theorem claim_C1_partial_effect_on_reject :
    apply_allocations [("R", 10)]
      [[("R", ⟨5, 0, 0⟩)], [("R", ⟨5, 0, 0⟩)]]
      [⟨Script.pay (some "alice"), 600⟩, ⟨Script.pay none, 600⟩] none
      = some ([⟨0, "R", "alice", 5⟩], false) := by decide

/-- C10: every output index returned by `get_change_output` or
`extract_premine_address` is strictly below the transaction's output count,
so the subsequent indexing of `tx.output` and of the per-output allocation
vector with it never goes out of bounds.  The hypothesis `hp` is the
upstream invariant established by `ordinals::Runestone::decipher`, the only
source of the pointer these private functions ever receive: a runestone
whose pointer is not strictly below the output count decodes as a cenotaph
(all inputs are burned and neither function is called), so in particular a
pointer equal to `tx.output.len()` never reaches them; with no pointer, both
functions return an index produced by enumerating the outputs. -/
theorem claim_C10_indices_in_bounds (outs : List TxOut) (pointer : Option Nat)
    (hp : ∀ p, pointer = some p → p < outs.length) (v : Nat)
    (hv : get_change_output outs pointer = some v
      ∨ extract_premine_address pointer outs = some v) :
    v < outs.length ∧ (∃ out, outs[v]? = some out) ∧
    (∀ (al : List AllocMap) (r : RuneName) (f : Allocation → Allocation),
      al.length = outs.length → ∃ al2, bumpAt al v r f = some al2) := by
  have hlt : v < outs.length := by
    cases pointer with
    | some p =>
        have hone : (if outs.length < p then (none : Option Nat) else some p) = some v := by
          rcases hv with hv | hv
          · exact hv
          · exact hv
        have hpv : v = p := by
          by_cases hc : outs.length < p
          · rw [if_pos hc] at hone
            exact absurd hone (by simp)
          · rw [if_neg hc] at hone
            exact (Option.some.inj hone).symm
        have := hp p rfl
        omega
    | none =>
        rcases hv with hv | hv
        · simp only [get_change_output] at hv
          cases hfind : outs.enum.find? (fun p => !p.2.script.startsOpReturn) with
          | none => rw [hfind] at hv; simp at hv
          | some pp =>
              rw [hfind] at hv
              simp only [Option.map_some', Option.some.injEq] at hv
              have hmem := List.mem_of_find?_eq_some hfind
              have h2 : pp.1 ∈ outs.enum.map Prod.fst := List.mem_map_of_mem _ hmem
              rw [List.enum_map_fst] at h2
              have h3 := List.mem_range.mp h2
              omega
        · simp only [extract_premine_address] at hv
          obtain ⟨-, htgt, -⟩ := premine_scan_sound outs false 0 v hv
          rw [Nat.sub_zero] at htgt
          obtain ⟨⟨o, ho, -⟩, -⟩ := htgt
          obtain ⟨h1, -⟩ := List.getElem?_eq_some.mp ho
          exact h1
  refine ⟨hlt, ⟨outs[v], List.getElem?_eq_getElem hlt⟩, ?_⟩
  intro al r f hlen
  cases hb : bumpAt al v r f with
  | none =>
      have := (bumpAt_eq_none al v r f).mp hb
      omega
  | some al2 => exact ⟨al2, rfl⟩

/-- Witness for C10: a 1-output transaction with the (decipher-valid)
pointer 0. -/
theorem claim_C10_indices_in_bounds_witness :
    (0 : Nat) < [(⟨Script.pay (some "alice"), 600⟩ : TxOut)].length :=
  (claim_C10_indices_in_bounds [⟨Script.pay (some "alice"), 600⟩] (some 0)
      (by intro p hq; injection hq with h; subst h; decide) 0 (Or.inl (by decide))).1

/-! ## Unallocated map and apply_allocations lemmas -/

theorem UnallocMap.get_dec (u : UnallocMap) (r r' : RuneName) (amt : Nat) :
    UnallocMap.get (UnallocMap.dec u r amt) r' =
      if r' = r then UnallocMap.get u r' - amt else UnallocMap.get u r' := by
  induction u with
  | nil =>
      simp only [UnallocMap.dec, UnallocMap.get]
      by_cases h : r' = r
      · simp [h]
      · simp [h, show ¬ r = r' from fun hh => h hh.symm]
  | cons p rest ih =>
      obtain ⟨k, v⟩ := p
      by_cases hkr : k = r
      · subst hkr
        by_cases hk' : k = r'
        · subst hk'
          simp [UnallocMap.dec, UnallocMap.get]
        · simp [UnallocMap.dec, UnallocMap.get, hk',
            show ¬ r' = k from fun hh => hk' hh.symm]
      · by_cases hk' : k = r'
        · subst hk'
          simp [UnallocMap.dec, UnallocMap.get, hkr, show ¬ k = r from hkr]
        · simp [UnallocMap.dec, UnallocMap.get, hkr, hk', ih]

theorem UnallocMap.keys_dec (u : UnallocMap) (r : RuneName) (amt : Nat) :
    (UnallocMap.dec u r amt).map Prod.fst =
      if r ∈ u.map Prod.fst then u.map Prod.fst else u.map Prod.fst ++ [r] := by
  induction u with
  | nil => simp [UnallocMap.dec]
  | cons p rest ih =>
      obtain ⟨k, v⟩ := p
      by_cases hkr : k = r
      · subst hkr
        simp [UnallocMap.dec]
      · by_cases hm : r ∈ rest.map Prod.fst <;>
          simp [UnallocMap.dec, hkr, ih, hm, show ¬ r = k from fun hh => hkr hh.symm]

theorem UnallocMap.nodup_dec (u : UnallocMap) (r : RuneName) (amt : Nat)
    (h : (u.map Prod.fst).Nodup) :
    ((UnallocMap.dec u r amt).map Prod.fst).Nodup := by
  rw [UnallocMap.keys_dec]
  by_cases hm : r ∈ u.map Prod.fst
  · simp [hm, h]
  · simp [hm, List.nodup_append, h]

theorem unalloc_get_eq_zero_of_not_mem (u : UnallocMap) (r : RuneName)
    (h : ¬ r ∈ u.map Prod.fst) : UnallocMap.get u r = 0 := by
  induction u with
  | nil => rfl
  | cons p rest ih =>
      obtain ⟨k, v⟩ := p
      simp only [List.map_cons, List.mem_cons] at h
      push_neg at h
      simp [UnallocMap.get, show ¬ k = r from fun hh => h.1 hh.symm, ih h.2]

theorem allocmap_get_eq_zero_of_not_mem (m : AllocMap) (r : RuneName)
    (h : ¬ r ∈ m.map Prod.fst) : AllocMap.get m r = Allocation.zero := by
  induction m with
  | nil => rfl
  | cons p rest ih =>
      obtain ⟨k, v⟩ := p
      simp only [List.map_cons, List.mem_cons] at h
      push_neg at h
      simp [AllocMap.get, show ¬ k = r from fun hh => h.1 hh.symm, ih h.2]

theorem UnallocMap.val_eq_get (u : UnallocMap) (hnd : (u.map Prod.fst).Nodup)
    (p : RuneName × Nat) (hp : p ∈ u) : p.2 = UnallocMap.get u p.1 := by
  induction u with
  | nil => simp at hp
  | cons q rest ih =>
      obtain ⟨k, v⟩ := q
      simp only [List.map_cons, List.nodup_cons] at hnd
      rcases List.mem_cons.mp hp with h | h
      · subst h
        simp [UnallocMap.get]
      · have hk : ¬ k = p.1 := by
          intro hh
          refine hnd.1 ?_
          rw [hh]
          exact List.mem_map_of_mem Prod.fst h
        simp [UnallocMap.get, hk, ih hnd.2 h]

theorem get_foldl_dec (m : AllocMap) :
    ∀ (u : UnallocMap) (r : RuneName), (m.map Prod.fst).Nodup →
      UnallocMap.get (m.foldl (fun acc p => UnallocMap.dec acc p.1 p.2.edict) u) r =
        UnallocMap.get u r - (AllocMap.get m r).edict := by
  induction m with
  | nil =>
      intro u r _
      simp [AllocMap.get, Allocation.zero]
  | cons q rest ih =>
      intro u r hnd
      obtain ⟨k, a⟩ := q
      simp only [List.map_cons, List.nodup_cons] at hnd
      simp only [List.foldl_cons]
      rw [ih _ r hnd.2, UnallocMap.get_dec]
      by_cases hk : r = k
      · subst hk
        have hz : AllocMap.get rest r = Allocation.zero :=
          allocmap_get_eq_zero_of_not_mem rest r hnd.1
        simp [AllocMap.get, hz, Allocation.zero]
      · simp [AllocMap.get, hk, show ¬ k = r from fun hh => hk hh.symm]

theorem nodup_foldl_dec (m : AllocMap) :
    ∀ u : UnallocMap, (u.map Prod.fst).Nodup →
      ((m.foldl (fun acc p => UnallocMap.dec acc p.1 p.2.edict) u).map Prod.fst).Nodup := by
  induction m with
  | nil => intro u h; exact h
  | cons q rest ih =>
      intro u h
      simp only [List.foldl_cons]
      exact ih _ (UnallocMap.nodup_dec _ _ _ h)

theorem phase2_spec (outs : List TxOut) :
    ∀ (l : List (Nat × AllocMap)) (u : UnallocMap) (rows : List RuneUtxoRow)
      (u2 : UnallocMap),
      (∀ p ∈ l, ((p.2 : AllocMap).map Prod.fst).Nodup) →
      phase2 outs l u = some (rows, u2, true) →
      (∀ r, UnallocMap.get u2 r = UnallocMap.get u r - sum_edict_entries l r) ∧
      ((u.map Prod.fst).Nodup → (u2.map Prod.fst).Nodup) := by
  intro l
  induction l with
  | nil =>
      intro u rows u2 _ h
      simp only [phase2, Option.some.injEq, Prod.mk.injEq] at h
      obtain ⟨-, h2, -⟩ := h
      subst h2
      exact ⟨fun r => by simp [sum_edict_entries], fun hh => hh⟩
  | cons p rest ih =>
      intro u rows u2 hm h
      obtain ⟨vout, m⟩ := p
      cases m with
      | nil =>
          have h2 : phase2 outs rest u = some (rows, u2, true) := by
            simpa [phase2] using h
          obtain ⟨hget, hnd⟩ := ih u rows u2
            (fun q hq => hm q (List.mem_cons_of_mem _ hq)) h2
          refine ⟨fun r => ?_, hnd⟩
          rw [hget r]
          simp [sum_edict_entries, AllocMap.get, Allocation.zero]
      | cons q mrest =>
          cases houts : outs[vout]? with
          | none => simp [phase2, houts] at h
          | some out =>
              cases haddr : out.script.address with
              | none => simp [phase2, houts, haddr] at h
              | some addr =>
                  cases hrec : phase2 outs rest
                      (List.foldl (fun acc p => UnallocMap.dec acc p.1 p.2.edict)
                        (UnallocMap.dec u q.1 q.2.edict) mrest) with
                  | none => simp [phase2, houts, haddr, hrec] at h
                  | some trip =>
                      obtain ⟨rows2, u3, ok⟩ := trip
                      cases ok with
                      | false =>
                          simp [phase2, houts, haddr, hrec] at h
                      | true =>
                      have h3 := h
                      simp [phase2, houts, haddr, hrec] at h3
                      obtain ⟨-, hu23⟩ := h3
                      subst hu23
                      obtain ⟨hget, hnd⟩ := ih _ rows2 _
                        (fun qq hqq => hm qq (List.mem_cons_of_mem _ hqq)) hrec
                      have hmhead := hm (vout, q :: mrest) (List.mem_cons_self _ _)
                      refine ⟨fun r => ?_, fun hh => ?_⟩
                      · have hfd := get_foldl_dec (q :: mrest) u r hmhead
                        rw [List.foldl_cons] at hfd
                        rw [hget r, hfd, Nat.sub_sub]
                        simp [sum_edict_entries]
                      · have hnf := nodup_foldl_dec (q :: mrest) u hh
                        rw [List.foldl_cons] at hnf
                        exact hnd hnf

theorem sum_edict_entries_enum (al : List AllocMap) (r : RuneName) :
    sum_edict_entries al.enum r = total_edict al r := by
  unfold sum_edict_entries total_edict
  have hcomp : (fun p : Nat × AllocMap => (AllocMap.get p.2 r).edict)
      = (fun m : AllocMap => (AllocMap.get m r).edict) ∘ Prod.snd := rfl
  rw [hcomp, ← List.map_map, List.enum_map_snd]

theorem phase1_sound (u : UnallocMap) (al : List AllocMap)
    (h : phase1_ok u al = true) (r : RuneName) :
    total_edict al r ≤ UnallocMap.get u r := by
  by_cases hr : r ∈ (al.map (fun m => m.map Prod.fst)).flatten
  · have h2 := List.all_eq_true.mp h r hr
    exact of_decide_eq_true h2
  · have hz : total_edict al r = 0 := by
      unfold total_edict
      apply List.sum_eq_zero
      intro x hx
      obtain ⟨m, hmm, hxe⟩ := List.mem_map.mp hx
      have hzz : AllocMap.get m r = Allocation.zero := by
        refine allocmap_get_eq_zero_of_not_mem m r ?_
        intro hmem
        exact hr (List.mem_flatten.mpr ⟨m.map Prod.fst, List.mem_map_of_mem _ hmm, hmem⟩)
      rw [← hxe, hzz]
      rfl
    omega

theorem change_rows_cons (k : RuneName) (v : Nat) (rest : UnallocMap) (c : Nat)
    (a : Addr) :
    change_rows ((k, v) :: rest) c a =
      if v = 0 then change_rows rest c a
      else RuneUtxoRow.mk c k a v :: change_rows rest c a := by
  unfold change_rows
  by_cases h0 : v = 0 <;> simp [List.filterMap_cons, h0]

theorem mem_change_rows (u : UnallocMap) (c : Nat) (a : Addr) (row : RuneUtxoRow)
    (h : row ∈ change_rows u c a) :
    row.vout = c ∧ row.address = a ∧ 0 < row.amount ∧ (row.rune, row.amount) ∈ u := by
  unfold change_rows at h
  obtain ⟨p, hp, hrow⟩ := List.mem_filterMap.mp h
  by_cases h0 : p.2 = 0
  · simp [h0] at hrow
  · rw [if_neg h0] at hrow
    have hrow2 : RuneUtxoRow.mk c p.1 a p.2 = row := Option.some.inj hrow
    subst hrow2
    exact ⟨rfl, rfl, Nat.pos_of_ne_zero h0, by simpa using hp⟩

theorem change_rows_count (u : UnallocMap) (c : Nat) (a : Addr) (r : RuneName)
    (hnd : (u.map Prod.fst).Nodup) :
    ((change_rows u c a).filter (fun row => row.rune = r)).length =
      if UnallocMap.get u r = 0 then 0 else 1 := by
  induction u with
  | nil => simp [change_rows, UnallocMap.get]
  | cons p rest ih =>
      obtain ⟨k, v⟩ := p
      simp only [List.map_cons, List.nodup_cons] at hnd
      have ihr := ih hnd.2
      rw [change_rows_cons]
      by_cases h0 : v = 0
      · rw [if_pos h0, ihr]
        by_cases hkr : k = r
        · subst hkr
          have hz : UnallocMap.get rest k = 0 :=
            unalloc_get_eq_zero_of_not_mem rest k hnd.1
          simp [UnallocMap.get, hz, h0]
        · simp [UnallocMap.get, show ¬ k = r from hkr]
      · rw [if_neg h0]
        by_cases hkr : k = r
        · subst hkr
          have hz : UnallocMap.get rest k = 0 :=
            unalloc_get_eq_zero_of_not_mem rest k hnd.1
          have htail : ((change_rows rest c a).filter
              (fun row => row.rune = k)).length = 0 := by
            rw [ihr, if_pos hz]
          simp [List.filter_cons, htail, UnallocMap.get, h0]
        · have hhr : ¬ (RuneUtxoRow.mk c k a v).rune = r := hkr
          simp [List.filter_cons, hhr, ihr, UnallocMap.get, show ¬ k = r from hkr]

theorem enum_snd_mem (l : List AllocMap) (p : Nat × AllocMap) (hp : p ∈ l.enum) :
    p.2 ∈ l := by
  have h2 := List.mem_map_of_mem Prod.snd hp
  rwa [List.enum_map_snd] at h2

/-- C2: for every transaction accepted by `apply_allocations`, every rune's
total edict allocation is bounded by the unallocated input amount collected
from the transaction's inputs, and the per-rune remainder (inputs minus
edict allocations) is credited exactly once — one row, at the change output
(pointer if present, else first non-`OP_RETURN` output), with exactly the
remainder as its amount, and only for runes with a positive remainder. -/
theorem claim_C2_conservation (u : UnallocMap) (al : List AllocMap) (outs : List TxOut)
    (ptr : Option Nat) (rows : List RuneUtxoRow)
    (hu : (u.map Prod.fst).Nodup)
    (hal : ∀ m ∈ al, ((m : AllocMap).map Prod.fst).Nodup)
    (h : apply_allocations u al outs ptr = some (rows, true)) :
    (∀ r, total_edict al r ≤ UnallocMap.get u r) ∧
    ∃ c addr p2 rest,
      get_change_output outs ptr = some c ∧
      rows = p2 ++ rest ∧
      (∀ row ∈ rest, row.vout = c ∧ row.address = addr ∧ 0 < row.amount ∧
        row.amount = UnallocMap.get u row.rune - total_edict al row.rune) ∧
      (∀ r, ((rest.filter (fun row => row.rune = r)).length) =
        if UnallocMap.get u r - total_edict al r = 0 then 0 else 1) := by
  cases hp1 : phase1_ok u al with
  | false => simp [apply_allocations, hp1] at h
  | true =>
      cases hph2 : phase2 outs al.enum u with
      | none => simp [apply_allocations, hp1, hph2] at h
      | some trip =>
          obtain ⟨rows0, u2, ok⟩ := trip
          cases ok with
          | false => simp [apply_allocations, hp1, hph2] at h
          | true =>
              cases hco : get_change_output outs ptr with
              | none => simp [apply_allocations, hp1, hph2, hco] at h
              | some c =>
                  cases houts : outs[c]? with
                  | none => simp [apply_allocations, hp1, hph2, hco, houts] at h
                  | some out =>
                      cases haddr : out.script.address with
                      | none =>
                          simp [apply_allocations, hp1, hph2, hco, houts, haddr] at h
                      | some addr =>
                          have hrows : rows0 ++ change_rows u2 c addr = rows := by
                            have h4 := h
                            simp [apply_allocations, hp1, hph2, hco, houts, haddr] at h4
                            exact h4
                          obtain ⟨hchar, hndimpl⟩ := phase2_spec outs al.enum u rows0 u2
                            (fun p hp => hal p.2 (enum_snd_mem al p hp)) hph2
                          have hget : ∀ r, UnallocMap.get u2 r =
                              UnallocMap.get u r - total_edict al r := fun r => by
                            rw [hchar r, sum_edict_entries_enum]
                          have hnd2 := hndimpl hu
                          refine ⟨fun r => phase1_sound u al hp1 r,
                            c, addr, rows0, change_rows u2 c addr, rfl, hrows.symm,
                            ?_, ?_⟩
                          · intro row hrow
                            obtain ⟨h1, h2, h3, h4⟩ :=
                              mem_change_rows u2 c addr row hrow
                            have h5 := UnallocMap.val_eq_get u2 hnd2 _ h4
                            simp only at h5
                            exact ⟨h1, h2, h3, by rw [h5, hget row.rune]⟩
                          · intro r
                            rw [change_rows_count u2 c addr r hnd2, hget r]

/-- Witness for C2: a concrete accepted transaction — inputs carry 10 of R,
a single edict sends 4 to output 0, the remainder 6 goes back to the change
output. -/
theorem claim_C2_conservation_witness :
    total_edict [[("R", ⟨4, 0, 0⟩)]] "R" ≤ UnallocMap.get [("R", 10)] "R" :=
  (claim_C2_conservation [("R", 10)] [[("R", ⟨4, 0, 0⟩)]]
      [⟨Script.pay (some "alice"), 600⟩] none
      [⟨0, "R", "alice", 4⟩, ⟨0, "R", "alice", 6⟩]
      (by decide) (by decide) (by decide)).1 "R"

end Power
